import Mathlib

/-!
# Verification of the Nifty-Analysis options analytics core

A shallow embedding of the numerical core of the Nifty-Analysis repository:
Black-Scholes pricing (`AdvancedGreeksCalculator.black_scholes_call/put` in
`nifty_greeks_calculator.py` and the `GreeksCalculator` variants in
`yahoo_nifty_greeks.py` / `nse_nifty_greeks.py`), the Greeks calculators,
the Newton-Raphson implied-volatility solvers, the open-interest analytics
(`enhanced_oi_calculator.py`), and the portfolio aggregators
(`yahoo_nifty_greeks.py`, `app.py`, `fastapi_app.py`).

Real-valued float computations are embedded over `ℝ`; `scipy.stats.norm.pdf`
and `norm.cdf` are modelled by the mathematical standard normal density and
its cumulative integral.  Open-interest arithmetic and Python `round`
(banker's rounding) are embedded over `ℚ` where the source works with plain
arithmetic on data values.
-/

open MeasureTheory Set

namespace NiftyAnalysis

/-! ## Standard normal density and CDF (model of `scipy.stats.norm`) -/

/-- Standard normal probability density, the model of `scipy.stats.norm.pdf`. -/
noncomputable def normPdf (x : ℝ) : ℝ := ProbabilityTheory.gaussianPDFReal 0 1 x

/-- Standard normal cumulative distribution, the model of `scipy.stats.norm.cdf`. -/
noncomputable def normCdf (x : ℝ) : ℝ := ∫ t in Iic x, normPdf t

/-! ## Black-Scholes pricing

`AdvancedGreeksCalculator.black_scholes_call` / `black_scholes_put`
(`nifty_greeks_calculator.py`, lines 241-271, dividend yield `q`) and the
`GreeksCalculator.black_scholes_call` / `black_scholes_put` variants of
`yahoo_nifty_greeks.py` / `nse_nifty_greeks.py` (no dividend yield). -/

/-- Option side; the source tags sides with strings `'call'`/`'put'`/`'CALL'`…
and branches on `option_type.lower() == 'call'` (anything else is a put). -/
inductive Side
  | call
  | put
deriving DecidableEq

/-- `d1 = (log(S/K) + (r - q + 0.5·σ²)·T) / (σ·√T)` as in the source. -/
noncomputable def bsD1 (S K T r sigma q : ℝ) : ℝ :=
  (Real.log (S / K) + (r - q + 0.5 * sigma ^ 2) * T) / (sigma * Real.sqrt T)

/-- `d2 = d1 - σ·√T` as in the source. -/
noncomputable def bsD2 (S K T r sigma q : ℝ) : ℝ :=
  bsD1 S K T r sigma q - sigma * Real.sqrt T

/-- `AdvancedGreeksCalculator.black_scholes_call`: intrinsic value for `T ≤ 0`,
otherwise the Black-Scholes value with dividend yield, floored at 0. -/
noncomputable def black_scholes_call (S K T r sigma q : ℝ) : ℝ :=
  if T ≤ 0 then max (S - K) 0
  else
    max (S * Real.exp (-q * T) * normCdf (bsD1 S K T r sigma q)
      - K * Real.exp (-r * T) * normCdf (bsD2 S K T r sigma q)) 0

/-- `AdvancedGreeksCalculator.black_scholes_put`. -/
noncomputable def black_scholes_put (S K T r sigma q : ℝ) : ℝ :=
  if T ≤ 0 then max (K - S) 0
  else
    max (K * Real.exp (-r * T) * normCdf (-bsD2 S K T r sigma q)
      - S * Real.exp (-q * T) * normCdf (-bsD1 S K T r sigma q)) 0

/-- `d1` of the yahoo/nse `GreeksCalculator` (no dividend yield). -/
noncomputable def ybsD1 (S K T r sigma : ℝ) : ℝ :=
  (Real.log (S / K) + (r + 0.5 * sigma ^ 2) * T) / (sigma * Real.sqrt T)

noncomputable def ybsD2 (S K T r sigma : ℝ) : ℝ :=
  ybsD1 S K T r sigma - sigma * Real.sqrt T

/-- `GreeksCalculator.black_scholes_call` (`yahoo_nifty_greeks.py` lines 31-41,
identically `nse_nifty_greeks.py` lines 32-42). -/
noncomputable def y_black_scholes_call (S K T r sigma : ℝ) : ℝ :=
  if T ≤ 0 then max (S - K) 0
  else
    max (S * normCdf (ybsD1 S K T r sigma)
      - K * Real.exp (-r * T) * normCdf (ybsD2 S K T r sigma)) 0

/-- `GreeksCalculator.black_scholes_put` (`yahoo_nifty_greeks.py` lines 43-53). -/
noncomputable def y_black_scholes_put (S K T r sigma : ℝ) : ℝ :=
  if T ≤ 0 then max (K - S) 0
  else
    max (K * Real.exp (-r * T) * normCdf (-ybsD2 S K T r sigma)
      - S * normCdf (-ybsD1 S K T r sigma)) 0

/-! ## Greeks calculators -/

/-- The seven-entry Greeks dictionary returned by
`AdvancedGreeksCalculator.calculate_greeks` (`nifty_greeks_calculator.py`). -/
structure Greeks where
  delta : ℝ
  gamma : ℝ
  theta : ℝ
  vega : ℝ
  rho : ℝ
  vomma : ℝ
  vanna : ℝ

/-- The `T ≤ 0` degenerate branch of `AdvancedGreeksCalculator.calculate_greeks`
(lines 276-296): delta is an indicator, every other Greek is 0. -/
noncomputable def greeksDegenerate (S K : ℝ) : Side → Greeks
  | Side.call => ⟨if S > K then 1 else 0, 0, 0, 0, 0, 0, 0⟩
  | Side.put => ⟨if S < K then -1 else 0, 0, 0, 0, 0, 0, 0⟩

/-- The formula branch of `AdvancedGreeksCalculator.calculate_greeks`
(lines 298-332): the `d1`/`d2`-based closed forms, including the division by
`σ·√T` in `d1` and the divisions by `σ` in vomma and vanna. -/
noncomputable def greeksFormula (S K T r sigma q : ℝ) (side : Side) : Greeks :=
  let d1 := bsD1 S K T r sigma q
  let d2 := bsD2 S K T r sigma q
  let gamma := Real.exp (-q * T) * normPdf d1 / (S * sigma * Real.sqrt T)
  let vega := S * Real.exp (-q * T) * normPdf d1 * Real.sqrt T / 100
  let vomma := vega * (d1 * d2) / sigma
  let vanna := -Real.exp (-q * T) * normPdf d1 * d2 / sigma
  match side with
  | Side.call =>
      { delta := Real.exp (-q * T) * normCdf d1
        gamma := gamma
        theta := (-S * Real.exp (-q * T) * normPdf d1 * sigma / (2 * Real.sqrt T)
          - r * K * Real.exp (-r * T) * normCdf d2
          + q * S * Real.exp (-q * T) * normCdf d1) / 365
        vega := vega
        rho := K * T * Real.exp (-r * T) * normCdf d2 / 100
        vomma := vomma
        vanna := vanna }
  | Side.put =>
      { delta := -(Real.exp (-q * T)) * normCdf (-d1)
        gamma := gamma
        theta := (-S * Real.exp (-q * T) * normPdf d1 * sigma / (2 * Real.sqrt T)
          + r * K * Real.exp (-r * T) * normCdf (-d2)
          - q * S * Real.exp (-q * T) * normCdf (-d1)) / 365
        vega := vega
        rho := -(K * T) * Real.exp (-r * T) * normCdf (-d2) / 100
        vomma := vomma
        vanna := vanna }

/-- `AdvancedGreeksCalculator.calculate_greeks` (lines 273-344): the guard tests
only `T ≤ 0`; any `T > 0` input, including `σ = 0`, reaches the formula branch. -/
noncomputable def calculate_greeks (S K T r sigma q : ℝ) (side : Side) : Greeks :=
  if T ≤ 0 then greeksDegenerate S K side else greeksFormula S K T r sigma q side

/-- `AngelOneConnector.calculate_greeks` (`app.py`, lines 454-484): returns the
tuple `(delta, gamma, theta, vega, rho)`, with an all-zero tuple whenever
`T ≤ 0` or `σ ≤ 0`. -/
noncomputable def app_calculate_greeks (side : Side) (S K T r sigma q : ℝ) :
    ℝ × ℝ × ℝ × ℝ × ℝ :=
  if T ≤ 0 ∨ sigma ≤ 0 then (0, 0, 0, 0, 0)
  else
    let d1 := bsD1 S K T r sigma q
    let d2 := bsD2 S K T r sigma q
    let gamma := Real.exp (-q * T) * normPdf d1 / (S * sigma * Real.sqrt T)
    let vega := S * Real.exp (-q * T) * normPdf d1 * Real.sqrt T / 100
    match side with
    | Side.call =>
        (Real.exp (-q * T) * normCdf d1, gamma,
          (-S * Real.exp (-q * T) * normPdf d1 * sigma / (2 * Real.sqrt T)
            - r * K * Real.exp (-r * T) * normCdf d2
            + q * S * Real.exp (-q * T) * normCdf d1) / 365,
          vega, K * T * Real.exp (-r * T) * normCdf d2 / 100)
    | Side.put =>
        (-(Real.exp (-q * T)) * normCdf (-d1), gamma,
          (-S * Real.exp (-q * T) * normPdf d1 * sigma / (2 * Real.sqrt T)
            + r * K * Real.exp (-r * T) * normCdf (-d2)
            - q * S * Real.exp (-q * T) * normCdf (-d1)) / 365,
          vega, -(K * T) * Real.exp (-r * T) * normCdf (-d2) / 100)

/-! ## Python `round` (banker's rounding) -/

/-- Python `round` to an integer: round half to even. -/
noncomputable def pyRoundInt (x : ℝ) : ℤ :=
  if x - ⌊x⌋ < 1 / 2 then ⌊x⌋
  else if 1 / 2 < x - ⌊x⌋ then ⌊x⌋ + 1
  else if Even ⌊x⌋ then ⌊x⌋ else ⌊x⌋ + 1

/-- Python `round(x, n)` on reals. -/
noncomputable def pyRound (x : ℝ) (n : ℕ) : ℝ := (pyRoundInt (x * 10 ^ n) : ℝ) / 10 ^ n

/-- Python `round` to an integer on rationals: round half to even. -/
def pyRoundIntQ (x : ℚ) : ℤ :=
  if x - ⌊x⌋ < 1 / 2 then ⌊x⌋
  else if 1 / 2 < x - ⌊x⌋ then ⌊x⌋ + 1
  else if Even ⌊x⌋ then ⌊x⌋ else ⌊x⌋ + 1

/-- Python `round(x, n)` on rationals. -/
def pyRoundQ (x : ℚ) (n : ℕ) : ℚ := (pyRoundIntQ (x * 10 ^ n) : ℚ) / 10 ^ n

/-! ## Implied-volatility solvers -/

/-- The call/put price dispatch `if option_type.lower() == 'call': ... else: ...`
used by `AdvancedGreeksCalculator.implied_volatility`. -/
noncomputable def bsPrice (side : Side) (S K T r sigma q : ℝ) : ℝ :=
  match side with
  | Side.call => black_scholes_call S K T r sigma q
  | Side.put => black_scholes_put S K T r sigma q

/-- The unscaled vega `S·e^(-qT)·φ(d1)·√T` computed inside the solver loop. -/
noncomputable def ivVegaRaw (S K T r sigma q : ℝ) : ℝ :=
  S * Real.exp (-q * T) * normPdf (bsD1 S K T r sigma q) * Real.sqrt T

/-- The `for i in range(max_iterations)` loop of
`AdvancedGreeksCalculator.implied_volatility` (lines 355-379), indexed by the
remaining iteration count.  Each pass prices at the current `sigma`, breaks when
`|price - option_price| < 0.001` or `vega == 0`, and otherwise applies the
Newton step clamped to `[0.01, 5.0]`. -/
noncomputable def ivLoop (p S K T r q : ℝ) (side : Side) : ℕ → ℝ → ℝ
  | 0, sigma => sigma
  | n + 1, sigma =>
      let price := bsPrice side S K T r sigma q
      let vega := ivVegaRaw S K T r sigma q
      if |price - p| < 0.001 ∨ vega = 0 then sigma
      else ivLoop p S K T r q side n (max 0.01 (min (sigma - (price - p) / vega) 5))

/-- `AdvancedGreeksCalculator.implied_volatility` (lines 346-381): returns `0.0`
when `T ≤ 0` or `option_price ≤ 0`, and otherwise `max(sigma, 0.01)` for the
final loop iterate `sigma` — whether or not the loop converged. -/
noncomputable def implied_volatility (p S K T r : ℝ) (side : Side) (q : ℝ) : ℝ :=
  if T ≤ 0 ∨ p ≤ 0 then 0 else max (ivLoop p S K T r q side 100 0.2) 0.01

/-- Companion to `ivLoop` that reports `some sigma` exactly when the loop exits
through its price-tolerance test (and `none` on a zero-vega break or on
exhausting the iteration budget).  Used to state what the solver does and does
not guarantee. -/
noncomputable def ivLoopConv (p S K T r q : ℝ) (side : Side) : ℕ → ℝ → Option ℝ
  | 0, _ => none
  | n + 1, sigma =>
      let price := bsPrice side S K T r sigma q
      let vega := ivVegaRaw S K T r sigma q
      if |price - p| < 0.001 then some sigma
      else if vega = 0 then none
      else ivLoopConv p S K T r q side n (max 0.01 (min (sigma - (price - p) / vega) 5))

/-- The call/put dispatch of the yahoo/nse `GreeksCalculator`. -/
noncomputable def ybsPrice (side : Side) (S K T r sigma : ℝ) : ℝ :=
  match side with
  | Side.call => y_black_scholes_call S K T r sigma
  | Side.put => y_black_scholes_put S K T r sigma

/-- The loop of `GreeksCalculator.calculate_implied_volatility`
(`nse_nifty_greeks.py`, lines 116-139): returns `round(sigma, 6)` on meeting the
tolerance, `None` on vega underflow or on exhausting the iteration budget. -/
noncomputable def nseIvLoop (p S K T r : ℝ) (side : Side) (tol : ℝ) :
    ℕ → ℝ → Option ℝ
  | 0, _ => none
  | n + 1, sigma =>
      let price := ybsPrice side S K T r sigma
      let diff := price - p
      if |diff| < tol then some (pyRound sigma 6)
      else
        let vega := S * normPdf (ybsD1 S K T r sigma) * Real.sqrt T
        if vega < 1e-10 then none
        else
          let sigma' := sigma - diff / vega
          nseIvLoop p S K T r side tol n (if sigma' ≤ 0 then 0.01 else sigma')

/-- `GreeksCalculator.calculate_implied_volatility` (`nse_nifty_greeks.py`,
lines 105-140): a typed-failure solver returning `Optional[float]` — `None`
for `T ≤ 0` or `option_price ≤ 0`, on vega underflow, and on non-convergence. -/
noncomputable def nse_calculate_implied_volatility (p S K T r : ℝ) (side : Side) :
    Option ℝ :=
  if T ≤ 0 ∨ p ≤ 0 then none else nseIvLoop p S K T r side 1e-5 100 0.3

/-! ## Yahoo Greeks (rounded five-entry dictionary) -/

/-- The five-entry Greeks dictionary of `GreeksCalculator.calculate_greeks`
(`yahoo_nifty_greeks.py`, lines 55-102), whose values the source rounds. -/
structure Greeks5 where
  delta : ℝ
  gamma : ℝ
  theta : ℝ
  vega : ℝ
  rho : ℝ

/-- `GreeksCalculator.calculate_greeks` (`yahoo_nifty_greeks.py`, lines 55-102). -/
noncomputable def y_calculate_greeks (S K T r sigma : ℝ) (side : Side) : Greeks5 :=
  if T ≤ 0 then
    match side with
    | Side.call => ⟨if S > K then 1 else 0, 0, 0, 0, 0⟩
    | Side.put => ⟨if S < K then -1 else 0, 0, 0, 0, 0⟩
  else
    let d1 := ybsD1 S K T r sigma
    let d2 := ybsD2 S K T r sigma
    let delta := match side with
      | Side.call => normCdf d1
      | Side.put => normCdf d1 - 1
    let gamma := normPdf d1 / (S * sigma * Real.sqrt T)
    let theta := match side with
      | Side.call => (-S * normPdf d1 * sigma / (2 * Real.sqrt T)
          - r * K * Real.exp (-r * T) * normCdf d2) / 365
      | Side.put => (-S * normPdf d1 * sigma / (2 * Real.sqrt T)
          + r * K * Real.exp (-r * T) * normCdf (-d2)) / 365
    let vega := S * normPdf d1 * Real.sqrt T / 100
    let rho := match side with
      | Side.call => K * T * Real.exp (-r * T) * normCdf d2 / 100
      | Side.put => -(K * T) * Real.exp (-r * T) * normCdf (-d2) / 100
    ⟨pyRound delta 6, pyRound gamma 8, pyRound theta 6, pyRound vega 6,
      pyRound rho 6⟩

/-! ## Open-interest analytics (`enhanced_oi_calculator.py`) -/

/-- One row of the `oi_data` dictionary: `(strike, call_oi, put_oi)`, in
dictionary insertion order (the callers build it over sorted strikes). -/
abbrev OIEntry := ℚ × ℚ × ℚ

/-- Total pain of a candidate strike `c`: the inner loop of
`OpenInterestCalculator.calculate_max_pain` (lines 130-145) adds
`(c - strike)·call_oi` for strikes below `c` and `(strike - c)·put_oi` for
strikes above `c`. -/
def totalPain (l : List OIEntry) (c : ℚ) : ℚ :=
  (l.map fun e =>
    (if e.1 < c then (c - e.1) * e.2.1 else 0)
      + (if c < e.1 then (e.1 - c) * e.2.2 else 0)).sum

/-- Python's `min(xs, key=g)` as a fold step: keep the earlier element unless a
strictly smaller key appears. -/
def selectMinBy {α : Type} (g : α → ℚ) (acc : Option α) (e : α) : Option α :=
  match acc with
  | none => some e
  | some b => if g e < g b then some e else some b

/-- `OpenInterestCalculator.calculate_max_pain` (lines 125-156): the strike of
minimal total pain, the first such strike in iteration order (`none` models the
`ValueError` of Python's `min` on an empty chain). -/
def calculate_max_pain (l : List OIEntry) : Option ℚ :=
  (l.foldl (selectMinBy fun e => totalPain l e.1) none).map (·.1)

/-- Per-strike `(call_oi, put_oi)` pairs. -/
abbrev OIPair := ℚ × ℚ

/-- The `total_pcr` entry of `OpenInterestCalculator.generate_oi_chart_data`
(line 204): the exact OI ratio, guarded by `if sum(call_oi_values) > 0`,
sentinel `0` otherwise. -/
def chart_total_pcr (l : List OIPair) : ℚ :=
  if 0 < (l.map Prod.fst).sum then (l.map Prod.snd).sum / (l.map Prod.fst).sum
  else 0

/-- The `total_pcr` entry of
`MarketDataEnhancer.calculate_comprehensive_analytics` (line 316):
`round(total_put_oi / total_call_oi, 4)` under the same zero guard. -/
def analytics_total_pcr (l : List OIPair) : ℚ :=
  if 0 < (l.map Prod.fst).sum then
    pyRoundQ ((l.map Prod.snd).sum / (l.map Prod.fst).sum) 4
  else 0

/-! ## Portfolio aggregation -/

/-- A raw position dictionary passed to
`PortfolioGreeksCalculator.calculate_portfolio_greeks`
(`yahoo_nifty_greeks.py`, lines 476-565).  `strike`, `quantity` and
`option_type` are read with `pos[...]` — a missing key raises `KeyError` —
while the remaining keys default through `pos.get(...)`. -/
structure YPosition where
  strike : Option ℝ
  quantity : Option ℤ
  option_type : Option Side
  days_to_expiry : Option ℝ
  volatility : Option ℝ
  risk_free_rate : Option ℝ

/-- One row of `position_details` (lines 533-544). -/
structure YLegDetail where
  strike : ℝ
  option_type : Side
  quantity : ℤ
  option_price : ℝ
  position_value : ℝ
  delta : ℝ
  gamma : ℝ
  theta : ℝ
  vega : ℝ
  rho : ℝ

/-- The values one successfully evaluated leg produces: its (rounded) details
row plus its unrounded contributions to the running totals. -/
structure YLeg where
  detail : YLegDetail
  cDelta : ℝ
  cGamma : ℝ
  cTheta : ℝ
  cVega : ℝ
  cRho : ℝ
  cPremium : ℝ

/-- The body of the `for pos in positions:` loop (lines 490-548).  `none` is
the `except` path: the failing leg is logged and skipped via `continue`, and
nothing about it is recorded anywhere in the output. -/
noncomputable def evalYPosition (spot : ℝ) (pos : YPosition) : Option YLeg :=
  match pos.strike, pos.quantity, pos.option_type with
  | some strike, some quantity, some side =>
      let days := pos.days_to_expiry.getD 30
      let vol := pos.volatility.getD 0.20
      let r := pos.risk_free_rate.getD 0.065
      let T := days / 365
      let price := ybsPrice side spot strike T r vol
      let g := y_calculate_greeks spot strike T r vol side
      some { detail :=
              { strike := strike
                option_type := side
                quantity := quantity
                option_price := pyRound price 2
                position_value := pyRound (price * quantity) 2
                delta := pyRound (g.delta * quantity) 6
                gamma := pyRound (g.gamma * quantity) 8
                theta := pyRound (g.theta * quantity) 6
                vega := pyRound (g.vega * quantity) 6
                rho := pyRound (g.rho * quantity) 6 }
             cDelta := g.delta * quantity
             cGamma := g.gamma * quantity
             cTheta := g.theta * quantity
             cVega := g.vega * quantity
             cRho := g.rho * quantity
             cPremium := price * quantity }
  | _, _, _ => none

/-- The running totals of the `portfolio_greeks` dictionary (lines 478-486). -/
structure YTotals where
  delta : ℝ
  gamma : ℝ
  theta : ℝ
  vega : ℝ
  rho : ℝ
  net_premium : ℝ

/-- One loop step: a failing leg leaves the accumulator untouched; a valid leg
adds its contributions and appends its details row. -/
noncomputable def yStep (spot : ℝ) (acc : YTotals × List YLegDetail)
    (pos : YPosition) : YTotals × List YLegDetail :=
  match evalYPosition spot pos with
  | none => acc
  | some leg =>
      ({ delta := acc.1.delta + leg.cDelta
         gamma := acc.1.gamma + leg.cGamma
         theta := acc.1.theta + leg.cTheta
         vega := acc.1.vega + leg.cVega
         rho := acc.1.rho + leg.cRho
         net_premium := acc.1.net_premium + leg.cPremium },
        acc.2 ++ [leg.detail])

/-- The `portfolio_greeks` dictionary of the result (rounded totals plus the
up-front `total_positions = len(positions)`). -/
structure YPortfolioGreeks where
  delta : ℝ
  gamma : ℝ
  theta : ℝ
  vega : ℝ
  rho : ℝ
  net_premium : ℝ
  total_positions : ℕ

/-- The result dictionary of `calculate_portfolio_greeks` (lines 557-562): it
has exactly the keys `portfolio_greeks`, `position_details` and `spot_price`
(plus a timestamp) — there is no error list of any kind. -/
structure YPortfolioResult where
  portfolio_greeks : YPortfolioGreeks
  position_details : List YLegDetail
  spot_price : ℝ

/-- `PortfolioGreeksCalculator.calculate_portfolio_greeks`
(`yahoo_nifty_greeks.py`, lines 476-565). -/
noncomputable def calculate_portfolio_greeks (positions : List YPosition)
    (spot : ℝ) : YPortfolioResult :=
  let res := positions.foldl (yStep spot) (⟨0, 0, 0, 0, 0, 0⟩, [])
  { portfolio_greeks :=
      { delta := pyRound res.1.delta 6
        gamma := pyRound res.1.gamma 6
        theta := pyRound res.1.theta 6
        vega := pyRound res.1.vega 6
        rho := pyRound res.1.rho 6
        net_premium := pyRound res.1.net_premium 6
        total_positions := positions.length }
    position_details := res.2
    spot_price := spot }

/-- A well-typed position for the `/api/portfolio-greeks` handlers of `app.py`
(lines 997-1002) and `fastapi_app.py` (lines 940-941). -/
structure AppPosition where
  strike : ℝ
  quantity : ℤ
  option_type : Side
  days_to_expiry : ℝ
  volatility : ℝ

/-- Response of the `/api/portfolio-greeks` handlers. -/
structure AppPortfolioResult where
  delta : ℝ
  gamma : ℝ
  theta : ℝ
  vega : ℝ
  rho : ℝ
  total_portfolio_value : ℝ
  positions_count : ℕ
  spot_price_used : ℝ

/-- The `/api/portfolio-greeks` handlers (`app.py` lines 986-1029,
`fastapi_app.py` lines 929-973): every leg is aggregated — there is no
per-position error handling, so a raising leg aborts the whole request and no
summary at all is produced; this function models the successful path.
`positions_count` is the input length. -/
noncomputable def app_calculate_portfolio_greeks (positions : List AppPosition)
    (spot : ℝ) : AppPortfolioResult :=
  let legG := fun (p : AppPosition) =>
    calculate_greeks spot p.strike (p.days_to_expiry / 365) 0.065 p.volatility 0
      p.option_type
  let legP := fun (p : AppPosition) =>
    bsPrice p.option_type spot p.strike (p.days_to_expiry / 365) 0.065
      p.volatility 0
  { delta := pyRound ((positions.map fun p => (legG p).delta * p.quantity).sum) 6
    gamma := pyRound ((positions.map fun p => (legG p).gamma * p.quantity).sum) 6
    theta := pyRound ((positions.map fun p => (legG p).theta * p.quantity).sum) 6
    vega := pyRound ((positions.map fun p => (legG p).vega * p.quantity).sum) 6
    rho := pyRound ((positions.map fun p => (legG p).rho * p.quantity).sum) 6
    total_portfolio_value :=
      pyRound ((positions.map fun p => legP p * p.quantity).sum) 2
    positions_count := positions.length
    spot_price_used := spot }

/-! ## Analytic groundwork -/

lemma normPdf_eq (x : ℝ) :
    normPdf x = (Real.sqrt (2 * Real.pi))⁻¹ * Real.exp (-x ^ 2 / 2) := by
  simp [normPdf, ProbabilityTheory.gaussianPDFReal]

lemma normPdf_pos (x : ℝ) : 0 < normPdf x :=
  ProbabilityTheory.gaussianPDFReal_pos 0 1 x one_ne_zero

lemma normPdf_nonneg (x : ℝ) : 0 ≤ normPdf x := (normPdf_pos x).le

lemma integrable_normPdf : Integrable normPdf :=
  ProbabilityTheory.integrable_gaussianPDFReal 0 1

lemma integral_normPdf : ∫ x, normPdf x = 1 :=
  ProbabilityTheory.integral_gaussianPDFReal_eq_one 0 one_ne_zero

lemma normPdf_neg (x : ℝ) : normPdf (-x) = normPdf x := by
  simp [normPdf_eq, neg_pow]

lemma normCdf_nonneg (x : ℝ) : 0 ≤ normCdf x :=
  setIntegral_nonneg measurableSet_Iic fun t _ => normPdf_nonneg t

lemma normCdf_mono {x y : ℝ} (h : x ≤ y) : normCdf x ≤ normCdf y := by
  refine setIntegral_mono_set integrable_normPdf.integrableOn
    (Filter.Eventually.of_forall fun t => normPdf_nonneg t) ?_
  exact HasSubset.Subset.eventuallyLE (Iic_subset_Iic.mpr h)

lemma normCdf_add_neg (x : ℝ) : normCdf x + normCdf (-x) = 1 := by
  have hneg : normCdf (-x) = ∫ t in Ioi x, normPdf t := by
    have h := integral_comp_neg_Iic (-x) normPdf
    simp only [neg_neg] at h
    calc normCdf (-x) = ∫ t in Iic (-x), normPdf (-t) := by
          refine setIntegral_congr_fun measurableSet_Iic fun t _ => ?_
          rw [normPdf_neg]
      _ = ∫ t in Ioi x, normPdf t := h
  have hsplit : (∫ t in Iic x, normPdf t) + ∫ t in Ioi x, normPdf t = 1 := by
    rw [← setIntegral_union (Iic_disjoint_Ioi le_rfl) measurableSet_Ioi
      integrable_normPdf.integrableOn integrable_normPdf.integrableOn,
      Iic_union_Ioi, Measure.restrict_univ]
    exact integral_normPdf
  rw [normCdf, hneg]
  exact hsplit

lemma normCdf_le_one (x : ℝ) : normCdf x ≤ 1 := by
  have h := normCdf_add_neg x
  have h2 := normCdf_nonneg (-x)
  linarith

lemma normCdf_zero : normCdf 0 = 1 / 2 := by
  have h := normCdf_add_neg 0
  rw [neg_zero] at h
  linarith

lemma integral_Iic_comp_add_right (f : ℝ → ℝ) (a c : ℝ) :
    ∫ t in Iic a, f (t + c) = ∫ t in Iic (a + c), f t := by
  have hind : ∀ t : ℝ, indicator (Iic a) (fun s => f (s + c)) t
      = indicator (Iic (a + c)) f (t + c) := by
    intro t
    by_cases ht : t ≤ a
    · rw [indicator_of_mem (mem_Iic.mpr ht),
        indicator_of_mem (mem_Iic.mpr (by linarith))]
    · rw [indicator_of_not_mem (by simpa using ht),
        indicator_of_not_mem (by simp only [mem_Iic]; intro h; exact ht (by linarith))]
  rw [← integral_indicator measurableSet_Iic, ← integral_indicator measurableSet_Iic]
  calc ∫ t, indicator (Iic a) (fun s => f (s + c)) t
      = ∫ t, indicator (Iic (a + c)) f (t + c) := by simp_rw [hind]
    _ = ∫ t, indicator (Iic (a + c)) f t := integral_add_right_eq_self _ c

lemma normPdf_add (t c : ℝ) :
    normPdf (t + c) = normPdf t * Real.exp (-(t * c) - c ^ 2 / 2) := by
  have harg : -(t + c) ^ 2 / 2 = -t ^ 2 / 2 + (-(t * c) - c ^ 2 / 2) := by ring
  rw [normPdf_eq, normPdf_eq, harg, Real.exp_add, mul_assoc]

/-- Core positivity fact behind the Black-Scholes formulas: with `A, B, c > 0` and
`d = (log (A/B) - c²/2) / c`, the combination `A·Φ(d+c) - B·Φ(d)` is strictly
positive.  Instantiated with `A = S·e^(-qT)`, `B = K·e^(-rT)`, `c = σ√T` this gives
strict positivity of the raw call price (and, with `A`/`B` swapped, the raw put). -/
lemma mul_normCdf_lt (A B c : ℝ) (hA : 0 < A) (hB : 0 < B) (hc : 0 < c) :
    B * normCdf ((Real.log (A / B) - c ^ 2 / 2) / c) <
      A * normCdf ((Real.log (A / B) - c ^ 2 / 2) / c + c) := by
  set d := (Real.log (A / B) - c ^ 2 / 2) / c with hd
  have hdc : d * c = Real.log (A / B) - c ^ 2 / 2 := by
    rw [hd]; field_simp; ring_nf
  have hexp : ∀ t : ℝ, t * c ≤ d * c → B ≤ A * Real.exp (-(t * c) - c ^ 2 / 2) := by
    intro t ht
    have hlog : Real.log (A / B) = Real.log A - Real.log B :=
      Real.log_div hA.ne' hB.ne'
    have h1 : Real.log B - Real.log A ≤ -(t * c) - c ^ 2 / 2 := by
      rw [hdc, hlog] at ht; linarith
    have h2 : Real.exp (Real.log B - Real.log A) ≤ Real.exp (-(t * c) - c ^ 2 / 2) :=
      Real.exp_le_exp.mpr h1
    have h3 : Real.exp (Real.log B - Real.log A) = B / A := by
      rw [Real.exp_sub, Real.exp_log hB, Real.exp_log hA]
    rw [h3] at h2
    calc B = A * (B / A) := by field_simp
      _ ≤ A * Real.exp (-(t * c) - c ^ 2 / 2) := by
          exact mul_le_mul_of_nonneg_left h2 hA.le
  have hexplt : ∀ t : ℝ, t * c < d * c → B < A * Real.exp (-(t * c) - c ^ 2 / 2) := by
    intro t ht
    have hlog : Real.log (A / B) = Real.log A - Real.log B :=
      Real.log_div hA.ne' hB.ne'
    have h1 : Real.log B - Real.log A < -(t * c) - c ^ 2 / 2 := by
      rw [hdc, hlog] at ht; linarith
    have h2 : Real.exp (Real.log B - Real.log A) < Real.exp (-(t * c) - c ^ 2 / 2) :=
      Real.exp_lt_exp.mpr h1
    have h3 : Real.exp (Real.log B - Real.log A) = B / A := by
      rw [Real.exp_sub, Real.exp_log hB, Real.exp_log hA]
    rw [h3] at h2
    calc B = A * (B / A) := by field_simp
      _ < A * Real.exp (-(t * c) - c ^ 2 / 2) := by
          exact (mul_lt_mul_left hA).mpr h2
  have hpt : ∀ t ∈ Iic d, B * normPdf t ≤ A * normPdf (t + c) := by
    intro t ht
    rw [normPdf_add, ← mul_assoc, mul_comm A (normPdf t), mul_assoc,
      mul_comm B (normPdf t)]
    exact mul_le_mul_of_nonneg_left
      (hexp t (mul_le_mul_of_nonneg_right (mem_Iic.mp ht) hc.le)) (normPdf_nonneg t)
  have hptlt : ∀ t ∈ Iio d, B * normPdf t < A * normPdf (t + c) := by
    intro t ht
    rw [normPdf_add, ← mul_assoc, mul_comm A (normPdf t), mul_assoc,
      mul_comm B (normPdf t)]
    exact (mul_lt_mul_left (normPdf_pos t)).mpr
      (hexplt t (mul_lt_mul_of_pos_right (mem_Iio.mp ht) hc))
  have hiA : IntegrableOn (fun t => A * normPdf (t + c)) (Iic d) :=
    ((integrable_normPdf.comp_add_right c).const_mul A).integrableOn
  have hiB : IntegrableOn (fun t => B * normPdf t) (Iic d) :=
    (integrable_normPdf.const_mul B).integrableOn
  have key : 0 < ∫ t in Iic d, (A * normPdf (t + c) - B * normPdf t) := by
    rw [setIntegral_pos_iff_support_of_nonneg_ae
      ((ae_restrict_iff' measurableSet_Iic).mpr (Filter.Eventually.of_forall
        fun t ht => sub_nonneg.mpr (hpt t ht)))
      (hiA.sub hiB)]
    refine lt_of_lt_of_le ?_ (measure_mono (?_ :
      Iio d ⊆ Function.support (fun t => A * normPdf (t + c) - B * normPdf t) ∩ Iic d))
    · rw [Real.volume_Iio]
      exact ENNReal.zero_lt_top
    · intro t ht
      refine ⟨?_, Iio_subset_Iic_self ht⟩
      exact ne_of_gt (sub_pos.mpr (hptlt t ht))
  have hsplit : (∫ t in Iic d, (A * normPdf (t + c) - B * normPdf t))
      = A * normCdf (d + c) - B * normCdf d := by
    rw [integral_sub hiA hiB, integral_mul_left, integral_mul_left,
      integral_Iic_comp_add_right normPdf d c]
    rfl
  rw [hsplit] at key
  linarith

/-- Chernoff-style tail bound used to show that deep out-of-the-money
Black-Scholes prices are far below the implied-volatility solver's tolerance. -/
lemma normCdf_neg_six_le : normCdf (-6) ≤ Real.exp (-18) / 2 := by
  have hsqrt : (2 : ℝ) ≤ Real.sqrt (2 * Real.pi) := by
    have h4 : Real.sqrt 4 = 2 := by
      rw [show (4 : ℝ) = 2 ^ 2 by norm_num, Real.sqrt_sq (by norm_num : (0:ℝ) ≤ 2)]
    rw [← h4]
    exact Real.sqrt_le_sqrt (by nlinarith [Real.pi_gt_three])
  have hinv : (Real.sqrt (2 * Real.pi))⁻¹ ≤ 1 / 2 := by
    rw [inv_le_iff_one_le_mul₀ (by positivity)]
    linarith
  have hpt : ∀ t ∈ Iic (-6 : ℝ),
      normPdf t ≤ 1 / 2 * Real.exp (-12) * Real.exp t := by
    intro t ht
    have ht6 : t ≤ -6 := mem_Iic.mp ht
    have hexp : Real.exp (-t ^ 2 / 2) ≤ Real.exp (-12) * Real.exp t := by
      rw [← Real.exp_add]
      exact Real.exp_le_exp.mpr (by nlinarith)
    rw [normPdf_eq]
    calc (Real.sqrt (2 * Real.pi))⁻¹ * Real.exp (-t ^ 2 / 2)
        ≤ 1 / 2 * (Real.exp (-12) * Real.exp t) :=
          mul_le_mul hinv hexp (Real.exp_nonneg _) (by norm_num)
      _ = 1 / 2 * Real.exp (-12) * Real.exp t := by ring
  calc normCdf (-6) ≤ ∫ t in Iic (-6 : ℝ), 1 / 2 * Real.exp (-12) * Real.exp t :=
        setIntegral_mono_on integrable_normPdf.integrableOn
          ((integrableOn_exp_Iic _).const_mul _) measurableSet_Iic hpt
    _ = 1 / 2 * Real.exp (-12) * Real.exp (-6) := by
        rw [integral_mul_left, integral_exp_Iic]
    _ = Real.exp (-18) / 2 := by
        rw [show (-18 : ℝ) = -12 + -6 by norm_num, Real.exp_add]; ring

lemma exp_neg_eighteen_lt : Real.exp (-18) < 1 / 100000 := by
  have h2 : (2 : ℝ) ≤ Real.exp 1 := by
    have := Real.exp_one_gt_d9
    linarith
  have hpow : (2 : ℝ) ^ (18 : ℕ) ≤ Real.exp 1 ^ (18 : ℕ) :=
    pow_le_pow_left₀ (by norm_num) h2 18
  have h18 : Real.exp 18 = Real.exp 1 ^ (18 : ℕ) := by
    rw [← Real.exp_nat_mul]; norm_num
  have hbig : (100000 : ℝ) < Real.exp 18 := by
    rw [h18]
    calc (100000 : ℝ) < 2 ^ (18 : ℕ) := by norm_num
      _ ≤ Real.exp 1 ^ (18 : ℕ) := hpow
  rw [Real.exp_neg]
  rw [inv_lt_iff_one_lt_mul₀ (Real.exp_pos 18)]
  nlinarith

lemma d2_eq (S K T r sigma q : ℝ) (hS : 0 < S) (hK : 0 < K) (hT : 0 < T)
    (hsigma : 0 < sigma) :
    bsD2 S K T r sigma q =
      (Real.log (S * Real.exp (-q * T) / (K * Real.exp (-r * T)))
        - (sigma * Real.sqrt T) ^ 2 / 2) / (sigma * Real.sqrt T) := by
  have hst : 0 < Real.sqrt T := Real.sqrt_pos.mpr hT
  have hc : sigma * Real.sqrt T ≠ 0 := by positivity
  have hAB : S * Real.exp (-q * T) / (K * Real.exp (-r * T))
      = S / K * Real.exp ((r - q) * T) := by
    rw [mul_div_mul_comm, ← Real.exp_sub]
    congr 1
    ring_nf
  have hlog : Real.log (S * Real.exp (-q * T) / (K * Real.exp (-r * T)))
      = Real.log (S / K) + (r - q) * T := by
    rw [hAB, Real.log_mul (by positivity : (0:ℝ) < S / K).ne' (Real.exp_ne_zero _),
      Real.log_exp]
  have hc2 : (sigma * Real.sqrt T) ^ 2 = sigma ^ 2 * T := by
    rw [mul_pow, Real.sq_sqrt hT.le]
  rw [bsD2, bsD1, hlog, hc2]
  field_simp
  linear_combination (-(2 * sigma ^ 3 * Real.sqrt T)) * Real.sq_sqrt hT.le

lemma d1_eq_d2_add (S K T r sigma q : ℝ) :
    bsD1 S K T r sigma q = bsD2 S K T r sigma q + sigma * Real.sqrt T := by
  rw [bsD2]; ring

lemma neg_d1_eq (S K T r sigma q : ℝ) (hS : 0 < S) (hK : 0 < K) (hT : 0 < T)
    (hsigma : 0 < sigma) :
    -bsD1 S K T r sigma q =
      (Real.log (K * Real.exp (-r * T) / (S * Real.exp (-q * T)))
        - (sigma * Real.sqrt T) ^ 2 / 2) / (sigma * Real.sqrt T) := by
  have hst : 0 < Real.sqrt T := Real.sqrt_pos.mpr hT
  have hc : sigma * Real.sqrt T ≠ 0 := by positivity
  have hloginv : Real.log (K * Real.exp (-r * T) / (S * Real.exp (-q * T)))
      = -Real.log (S * Real.exp (-q * T) / (K * Real.exp (-r * T))) := by
    rw [← Real.log_inv, inv_div]
  rw [d1_eq_d2_add, d2_eq S K T r sigma q hS hK hT hsigma, hloginv]
  field_simp
  ring_nf

lemma neg_d2_eq (S K T r sigma q : ℝ) :
    -bsD2 S K T r sigma q = -bsD1 S K T r sigma q + sigma * Real.sqrt T := by
  rw [bsD2]; ring

/-- The raw (unfloored) Black-Scholes call value is strictly positive. -/
lemma call_raw_pos (S K T r sigma q : ℝ) (hS : 0 < S) (hK : 0 < K) (hT : 0 < T)
    (hsigma : 0 < sigma) :
    0 < S * Real.exp (-q * T) * normCdf (bsD1 S K T r sigma q)
      - K * Real.exp (-r * T) * normCdf (bsD2 S K T r sigma q) := by
  have hst : 0 < Real.sqrt T := Real.sqrt_pos.mpr hT
  have hc : 0 < sigma * Real.sqrt T := by positivity
  have h := mul_normCdf_lt (S * Real.exp (-q * T)) (K * Real.exp (-r * T))
    (sigma * Real.sqrt T) (by positivity) (by positivity) hc
  rw [← d2_eq S K T r sigma q hS hK hT hsigma,
    ← d1_eq_d2_add S K T r sigma q] at h
  linarith

/-- The raw (unfloored) Black-Scholes put value is strictly positive. -/
lemma put_raw_pos (S K T r sigma q : ℝ) (hS : 0 < S) (hK : 0 < K) (hT : 0 < T)
    (hsigma : 0 < sigma) :
    0 < K * Real.exp (-r * T) * normCdf (-bsD2 S K T r sigma q)
      - S * Real.exp (-q * T) * normCdf (-bsD1 S K T r sigma q) := by
  have hst : 0 < Real.sqrt T := Real.sqrt_pos.mpr hT
  have hc : 0 < sigma * Real.sqrt T := by positivity
  have h := mul_normCdf_lt (K * Real.exp (-r * T)) (S * Real.exp (-q * T))
    (sigma * Real.sqrt T) (by positivity) (by positivity) hc
  rw [← neg_d1_eq S K T r sigma q hS hK hT hsigma,
    ← neg_d2_eq S K T r sigma q] at h
  linarith

/-! ## Claim theorems -/

/-- C4: for every input, both pricing variants return the intrinsic value when
`T ≤ 0` — `max(S-K, 0)` for a call, `max(K-S, 0)` for a put — and in all cases
the returned price is `≥ 0` (the result is floored at 0). -/
theorem pricing_intrinsic_at_expiry_and_nonneg (S K T r sigma q : ℝ) :
    (T ≤ 0 →
      black_scholes_call S K T r sigma q = max (S - K) 0 ∧
      black_scholes_put S K T r sigma q = max (K - S) 0 ∧
      y_black_scholes_call S K T r sigma = max (S - K) 0 ∧
      y_black_scholes_put S K T r sigma = max (K - S) 0) ∧
    0 ≤ black_scholes_call S K T r sigma q ∧
    0 ≤ black_scholes_put S K T r sigma q ∧
    0 ≤ y_black_scholes_call S K T r sigma ∧
    0 ≤ y_black_scholes_put S K T r sigma := by
  refine ⟨fun hT => ?_, ?_, ?_, ?_, ?_⟩
  · simp [black_scholes_call, black_scholes_put, y_black_scholes_call,
      y_black_scholes_put, hT]
  · unfold black_scholes_call; split <;> exact le_max_right _ _
  · unfold black_scholes_put; split <;> exact le_max_right _ _
  · unfold y_black_scholes_call; split <;> exact le_max_right _ _
  · unfold y_black_scholes_put; split <;> exact le_max_right _ _

/-- Witness for C4 at the concrete expired input `S = 2, K = 1, T = 0`. -/
theorem pricing_intrinsic_at_expiry_and_nonneg_witness :
    black_scholes_call 2 1 0 0 1 0 = max (2 - 1) 0 ∧
    black_scholes_put 2 1 0 0 1 0 = max (1 - 2) 0 ∧
    y_black_scholes_call 2 1 0 0 1 = max (2 - 1) 0 ∧
    y_black_scholes_put 2 1 0 0 1 = max (1 - 2) 0 ∧
    0 ≤ black_scholes_call 2 1 0 0 1 0 :=
  have h := pricing_intrinsic_at_expiry_and_nonneg 2 1 0 0 1 0
  ⟨(h.1 le_rfl).1, (h.1 le_rfl).2.1, (h.1 le_rfl).2.2.1, (h.1 le_rfl).2.2.2,
    h.2.1⟩

/-- C3: put-call parity.  For every valid input with `S, K, T, σ > 0` the call
price minus the put price equals `S·e^(-qT) - K·e^(-rT)` — exactly, in the real
model, hence in particular within any positive tolerance. -/
theorem put_call_parity (S K T r sigma q : ℝ) (hS : 0 < S) (hK : 0 < K)
    (hT : 0 < T) (hsigma : 0 < sigma) :
    black_scholes_call S K T r sigma q - black_scholes_put S K T r sigma q
      = S * Real.exp (-q * T) - K * Real.exp (-r * T) := by
  have hT' : ¬ T ≤ 0 := not_le.mpr hT
  have hcall := call_raw_pos S K T r sigma q hS hK hT hsigma
  have hput := put_raw_pos S K T r sigma q hS hK hT hsigma
  rw [black_scholes_call, black_scholes_put, if_neg hT', if_neg hT',
    max_eq_left hcall.le, max_eq_left hput.le]
  have h1 := normCdf_add_neg (bsD1 S K T r sigma q)
  have h2 := normCdf_add_neg (bsD2 S K T r sigma q)
  linear_combination (S * Real.exp (-q * T)) * h1 - (K * Real.exp (-r * T)) * h2

/-- Witness for C3 at `S = K = 1, T = 1, r = q = 0, σ = 1`. -/
theorem put_call_parity_witness :
    (0 : ℝ) < 1 ∧
    black_scholes_call 1 1 1 0 1 0 - black_scholes_put 1 1 1 0 1 0
      = 1 * Real.exp (-0 * 1) - 1 * Real.exp (-0 * 1) :=
  ⟨one_pos, put_call_parity 1 1 1 0 1 0 one_pos one_pos one_pos one_pos⟩

/-- C2 (code bug): `AdvancedGreeksCalculator.implied_volatility` does not fail
with a typed error — it returns the plain number `0.0` for `T ≤ 0` and for
`market_price ≤ 0` (its return type is a bare float, so on iteration-cap
exhaustion it likewise returns the last clamped iterate as an ordinary value),
while the nse variant `GreeksCalculator.calculate_implied_volatility` returns
the typed failure `None` exactly as the claim demands. -/
theorem implied_volatility_returns_number_on_invalid :
    implied_volatility 10 100 100 0 0.05 Side.call 0 = 0 ∧
    implied_volatility (-1) 100 100 1 0.05 Side.call 0 = 0 ∧
    nse_calculate_implied_volatility 10 100 100 0 0.05 Side.call = none := by
  refine ⟨?_, ?_, ?_⟩ <;>
    norm_num [implied_volatility, nse_calculate_implied_volatility]

/-- C5 (counterexample): with the invalid volatility `σ = -0.2 < 0` (and valid
`S = K = 100, T = 1, r = q = 0`) the pricing function does not fail with a
typed `InvalidParameter` — it evaluates the formulas and returns the ordinary
number `0`. -/
theorem no_invalid_parameter_validation_cx :
    black_scholes_call 100 100 1 0 (-(1 / 5)) 0 = 0 := by
  have hd1 : bsD1 100 100 1 0 (-(1 / 5)) 0 = -(1 / 10) := by
    rw [bsD1]
    norm_num [Real.sqrt_one, Real.log_one]
  have hd2 : bsD2 100 100 1 0 (-(1 / 5)) 0 = 1 / 10 := by
    rw [bsD2, hd1]
    norm_num [Real.sqrt_one]
  rw [black_scholes_call, if_neg (by norm_num), hd1, hd2]
  rw [max_eq_right]
  have hmono := normCdf_mono (show (-(1 / 10) : ℝ) ≤ 1 / 10 by norm_num)
  have hfac : (0 : ℝ) ≤ 100 * Real.exp (-0 * 1) := by positivity
  nlinarith [mul_le_mul_of_nonneg_left hmono hfac]

/-- C5 (amended): the pricing and Greeks operations perform no parameter
validation at all: for `σ < 0` (with `S, T > 0`) `calculate_greeks` evaluates
the `d1`/`d2` formulas anyway and returns garbage — a strictly negative gamma —
instead of raising a typed `InvalidParameter`, and `black_scholes_call`
likewise returns a plain number (see the counterexample). -/
theorem no_validation_garbage_greeks (S K T r q sigma : ℝ) (side : Side)
    (hS : 0 < S) (hT : 0 < T) (hsigma : sigma < 0) :
    (calculate_greeks S K T r sigma q side).gamma < 0 := by
  have hT' : ¬ T ≤ 0 := not_le.mpr hT
  rw [calculate_greeks, if_neg hT']
  have hgamma : (greeksFormula S K T r sigma q side).gamma
      = Real.exp (-q * T) * normPdf (bsD1 S K T r sigma q)
        / (S * sigma * Real.sqrt T) := by
    cases side <;> rfl
  rw [hgamma]
  apply div_neg_of_pos_of_neg
  · exact mul_pos (Real.exp_pos _) (normPdf_pos _)
  · have hst : 0 < Real.sqrt T := Real.sqrt_pos.mpr hT
    exact mul_neg_of_neg_of_pos (mul_neg_of_pos_of_neg hS hsigma) hst

/-- Witness for the amended C5 at `S = K = 100, T = 1, r = q = 0, σ = -0.2`. -/
theorem no_validation_garbage_greeks_witness :
    (0 : ℝ) < 100 ∧ (0 : ℝ) < 1 ∧ (-(1 / 5) : ℝ) < 0 ∧
    (calculate_greeks 100 100 1 0 (-(1 / 5)) 0 Side.call).gamma < 0 :=
  ⟨by norm_num, by norm_num, by norm_num,
    no_validation_garbage_greeks 100 100 1 0 0 (-(1 / 5)) Side.call
      (by norm_num) (by norm_num) (by norm_num)⟩

/-- C6 (counterexample): at `σ = 0, T = 1 > 0` (with `S = 100, K = 90`, call)
`AdvancedGreeksCalculator.calculate_greeks` does **not** take the `T ≤ 0`-style
degenerate branch: its guard tests only `T ≤ 0`, so the formula branch —
including the division by `σ·√T = 0` — is evaluated, and the result violates
the claimed degenerate output: rho is nonzero instead of 0. -/
theorem sigma_zero_formula_branch_cx :
    calculate_greeks 100 90 1 0 0 0 Side.call
      = greeksFormula 100 90 1 0 0 0 Side.call ∧
    (calculate_greeks 100 90 1 0 0 0 Side.call).rho ≠ 0 := by
  have hbr : calculate_greeks 100 90 1 0 0 0 Side.call
      = greeksFormula 100 90 1 0 0 0 Side.call := by
    rw [calculate_greeks, if_neg (by norm_num)]
  refine ⟨hbr, ?_⟩
  rw [hbr]
  have hd2 : bsD2 100 90 1 0 0 0 = 0 := by
    rw [bsD2, bsD1]
    norm_num [Real.sqrt_one]
  have hrho : (greeksFormula 100 90 1 0 0 0 Side.call).rho
      = 90 * 1 * Real.exp (-0 * 1) * normCdf (bsD2 100 90 1 0 0 0) / 100 := rfl
  rw [hrho, hd2, normCdf_zero]
  norm_num

/-- C6 (amended): the degenerate-branch guard of
`AdvancedGreeksCalculator.calculate_greeks` tests only `T ≤ 0`, so every input
with `T > 0` — `σ = 0` included — is routed to the `d1`/`d2` formula branch;
only `AngelOneConnector.calculate_greeks` in `app.py` also guards `σ ≤ 0`, and
that guard returns the all-zero tuple (delta `0`, not an indicator). -/
theorem greeks_guard_only_T (S K T r sigma q : ℝ) (side : Side) (hT : 0 < T) :
    calculate_greeks S K T r sigma q side = greeksFormula S K T r sigma q side ∧
    (sigma ≤ 0 → app_calculate_greeks side S K T r sigma q = (0, 0, 0, 0, 0)) := by
  constructor
  · rw [calculate_greeks, if_neg (not_le.mpr hT)]
  · intro hs
    rw [app_calculate_greeks, if_pos (Or.inr hs)]

/-- Witness for the amended C6 at `σ = 0, T = 1`. -/
theorem greeks_guard_only_T_witness :
    (0 : ℝ) < 1 ∧
    calculate_greeks 80 90 1 0 0 0 Side.put = greeksFormula 80 90 1 0 0 0 Side.put ∧
    app_calculate_greeks Side.put 80 90 1 0 0 0 = (0, 0, 0, 0, 0) :=
  ⟨one_pos, (greeks_guard_only_T 80 90 1 0 0 0 Side.put one_pos).1,
    (greeks_guard_only_T 80 90 1 0 0 0 Side.put one_pos).2 le_rfl⟩

/-- Python's `min(xs, key=g)` starting from accumulator `b`: the result is the
first element of `b :: xs` attaining the minimal key `g`; under strictly
increasing `key`-order this is the element of minimal `g` with least `key`. -/
lemma foldl_selectMinBy_spec {α : Type} (g key : α → ℚ) (xs : List α) :
    ∀ b : α, (b :: xs).Pairwise (fun u v => key u < key v) →
      ∃ a, xs.foldl (selectMinBy g) (some b) = some a
        ∧ (a = b ∨ (a ∈ xs ∧ g a < g b))
        ∧ ∀ x, (x = b ∨ x ∈ xs) → g a ≤ g x ∧ (g x ≤ g a → key a ≤ key x) := by
  induction xs with
  | nil =>
      intro b _
      refine ⟨b, rfl, Or.inl rfl, ?_⟩
      rintro x (rfl | hx)
      · exact ⟨le_refl _, fun _ => le_refl _⟩
      · cases hx
  | cons e xs ih =>
      intro b hp
      have hpe : (e :: xs).Pairwise (fun u v => key u < key v) :=
        (List.pairwise_cons.mp hp).2
      have hbe : key b < key e :=
        (List.pairwise_cons.mp hp).1 e (List.mem_cons_self e xs)
      rw [List.foldl_cons]
      by_cases h : g e < g b
      · have hsel : selectMinBy g (some b) e = some e := by
          simp [selectMinBy, h]
        rw [hsel]
        obtain ⟨a, hfold, hmem, hall⟩ := ih e hpe
        refine ⟨a, hfold, ?_, ?_⟩
        · right
          rcases hmem with rfl | ⟨hax, hlt⟩
          · exact ⟨List.mem_cons_self _ _, h⟩
          · exact ⟨List.mem_cons_of_mem _ hax, lt_trans hlt h⟩
        · rintro x (rfl | hx)
          · have hae : g a ≤ g e := (hall e (Or.inl rfl)).1
            exact ⟨le_of_lt (lt_of_le_of_lt hae h),
              fun hba => absurd (lt_of_le_of_lt hae h) (not_lt.mpr hba)⟩
          · rcases List.mem_cons.mp hx with rfl | hx'
            · exact hall x (Or.inl rfl)
            · exact hall x (Or.inr hx')
      · have hsel : selectMinBy g (some b) e = some b := by
          simp [selectMinBy, h]
        rw [hsel]
        have hpb : (b :: xs).Pairwise (fun u v => key u < key v) :=
          hp.sublist (List.Sublist.cons₂ b (List.sublist_cons_self e xs))
        obtain ⟨a, hfold, hmem, hall⟩ := ih b hpb
        refine ⟨a, hfold, ?_, ?_⟩
        · rcases hmem with rfl | ⟨hax, hlt⟩
          · exact Or.inl rfl
          · exact Or.inr ⟨List.mem_cons_of_mem _ hax, hlt⟩
        rintro x (rfl | hx)
        · exact hall x (Or.inl rfl)
        · rcases List.mem_cons.mp hx with rfl | hx'
          · have hge : g b ≤ g x := not_lt.mp h
            have hab : g a ≤ g b := by
              rcases hmem with rfl | ⟨_, hlt⟩
              · exact le_refl _
              · exact hlt.le
            refine ⟨le_trans hab hge, fun hxa => ?_⟩
            rcases hmem with rfl | ⟨hax, hlt⟩
            · exact hbe.le
            · exact absurd (lt_of_le_of_lt hxa hlt) (not_lt.mpr hge)
          · exact hall x (Or.inr hx')

/-- C1: `calculate_max_pain` computes, for every candidate strike `c` in the
chain, the total pain `Σ_{k<c} (c-k)·callOI(k) + Σ_{k>c} (k-c)·putOI(k)` and
returns the candidate of minimal pain, ties broken by the lowest strike (the
chain's strikes being strictly increasing, as every caller builds them).  On
the concrete chain `{100, 200, 300}` with `(callOI, putOI) =
(10,50), (30,30), (50,10)` the pains are `5000, 2000, 5000` and the result is
`200`. -/
theorem calculate_max_pain_spec :
    (∀ (l : List OIEntry) (m : ℚ),
      (l.map (·.1)).Pairwise (· < ·) →
      calculate_max_pain l = some m →
      m ∈ l.map (·.1) ∧
        ∀ e ∈ l, totalPain l m ≤ totalPain l e.1 ∧
          (totalPain l e.1 ≤ totalPain l m → m ≤ e.1)) ∧
    totalPain [(100, 10, 50), (200, 30, 30), (300, 50, 10)] 100 = 5000 ∧
    totalPain [(100, 10, 50), (200, 30, 30), (300, 50, 10)] 200 = 2000 ∧
    totalPain [(100, 10, 50), (200, 30, 30), (300, 50, 10)] 300 = 5000 ∧
    calculate_max_pain [(100, 10, 50), (200, 30, 30), (300, 50, 10)]
      = some 200 := by
  refine ⟨?_, ?_, ?_, ?_, ?_⟩
  · intro l m hsort hres
    cases l with
    | nil => simp [calculate_max_pain] at hres
    | cons x xs =>
        rw [calculate_max_pain, List.foldl_cons] at hres
        have hsel : selectMinBy (fun e => totalPain (x :: xs) e.1) none x
            = some x := rfl
        rw [hsel] at hres
        have hpair : (x :: xs).Pairwise (fun u v => u.1 < v.1) := by
          rw [List.pairwise_map] at hsort
          exact hsort
        obtain ⟨a, hfold, hmem, hall⟩ :=
          foldl_selectMinBy_spec (fun e => totalPain (x :: xs) e.1)
            (fun e => e.1) xs x hpair
        rw [hfold] at hres
        have ham : a.1 = m := by simpa using hres
        constructor
        · rw [← ham]
          rcases hmem with rfl | ⟨hax, _⟩
          · exact List.mem_map_of_mem _ (List.mem_cons_self _ _)
          · exact List.mem_map_of_mem _ (List.mem_cons_of_mem _ hax)
        · intro e he
          rw [← ham]
          exact hall e (by
            rcases List.mem_cons.mp he with rfl | h
            exacts [Or.inl rfl, Or.inr h])
  · norm_num [totalPain]
  · norm_num [totalPain]
  · norm_num [totalPain]
  · norm_num [calculate_max_pain, selectMinBy, totalPain]

/-- Witness for C1: the general argmin/tie-break statement instantiated on the
concrete three-strike chain, with its hypotheses discharged there. -/
theorem calculate_max_pain_spec_witness :
    (([(100, 10, 50), (200, 30, 30), (300, 50, 10)] : List OIEntry).map
      (·.1)).Pairwise (· < ·) ∧
    (200 : ℚ) ∈ ([(100, 10, 50), (200, 30, 30), (300, 50, 10)] :
      List OIEntry).map (·.1) ∧
    ∀ e ∈ ([(100, 10, 50), (200, 30, 30), (300, 50, 10)] : List OIEntry),
      totalPain [(100, 10, 50), (200, 30, 30), (300, 50, 10)] 200
          ≤ totalPain [(100, 10, 50), (200, 30, 30), (300, 50, 10)] e.1 ∧
        (totalPain [(100, 10, 50), (200, 30, 30), (300, 50, 10)] e.1
            ≤ totalPain [(100, 10, 50), (200, 30, 30), (300, 50, 10)] 200 →
          200 ≤ e.1) := by
  have hsort : (([(100, 10, 50), (200, 30, 30), (300, 50, 10)] :
      List OIEntry).map (·.1)).Pairwise (· < ·) := by
    norm_num [List.pairwise_cons]
  have h := calculate_max_pain_spec.1
    [(100, 10, 50), (200, 30, 30), (300, 50, 10)] 200 hsort
    calculate_max_pain_spec.2.2.2.2
  exact ⟨hsort, h.1, h.2⟩

lemma abs_pyRoundIntQ_sub_le (y : ℚ) : |(pyRoundIntQ y : ℚ) - y| ≤ 1 / 2 := by
  have h0 : (⌊y⌋ : ℚ) ≤ y := Int.floor_le y
  have h1 : y < ⌊y⌋ + 1 := Int.lt_floor_add_one y
  unfold pyRoundIntQ
  split_ifs with ha hb hc <;> push_cast <;> rw [abs_le] <;> constructor <;>
    linarith

lemma abs_pyRoundQ4_sub_le (x : ℚ) : |pyRoundQ x 4 - x| ≤ 1 / 20000 := by
  have h := abs_pyRoundIntQ_sub_le (x * 10 ^ 4)
  rw [pyRoundQ]
  calc |(pyRoundIntQ (x * 10 ^ 4) : ℚ) / 10 ^ 4 - x|
      = |((pyRoundIntQ (x * 10 ^ 4) : ℚ) - x * 10 ^ 4) / 10 ^ 4| := by
        congr 1; ring
    _ = |(pyRoundIntQ (x * 10 ^ 4) : ℚ) - x * 10 ^ 4| / 10 ^ 4 := by
        rw [abs_div]; norm_num
    _ ≤ (1 / 2) / 10 ^ 4 := by gcongr
    _ = 1 / 20000 := by norm_num

/-- C7 (counterexample): with per-strike OI `[(call, put)] = [(3, 1)]` the
comprehensive-analytics PCR is `round(1/3, 4) = 0.3333`, not the exact ratio
`total_put_oi / total_call_oi = 1/3` the claim asserts. -/
theorem analytics_pcr_rounded_cx :
    analytics_total_pcr [(3, 1)]
        ≠ (([((3 : ℚ), (1 : ℚ))].map Prod.snd).sum
            / ([((3 : ℚ), (1 : ℚ))].map Prod.fst).sum) ∧
    analytics_total_pcr [(3, 1)] = 3333 / 10000 := by
  have hfloor : ⌊(1 / 3 * 10 ^ 4 : ℚ)⌋ = 3333 := by
    rw [Int.floor_eq_iff]
    norm_num
  have hval : analytics_total_pcr [(3, 1)] = 3333 / 10000 := by
    rw [analytics_total_pcr]
    norm_num [pyRoundQ, pyRoundIntQ, hfloor]
  refine ⟨?_, hval⟩
  rw [hval]
  norm_num

/-- C7 (amended): the PCR computations guard against a zero call-OI total with
the sentinel `0` (never a division error), and for a positive call-OI total the
chart-data PCR is the exact ratio `total_put_oi / total_call_oi` while the
comprehensive-analytics PCR is that ratio rounded to 4 decimal places (hence
within `5·10⁻⁵` of it). -/
theorem pcr_sentinel_and_ratio (l : List OIPair) :
    ((l.map Prod.fst).sum ≤ 0 →
      chart_total_pcr l = 0 ∧ analytics_total_pcr l = 0) ∧
    (0 < (l.map Prod.fst).sum →
      chart_total_pcr l = (l.map Prod.snd).sum / (l.map Prod.fst).sum ∧
      analytics_total_pcr l
          = pyRoundQ ((l.map Prod.snd).sum / (l.map Prod.fst).sum) 4 ∧
      |analytics_total_pcr l - (l.map Prod.snd).sum / (l.map Prod.fst).sum|
          ≤ 1 / 20000) := by
  constructor
  · intro h
    rw [chart_total_pcr, analytics_total_pcr, if_neg (not_lt.mpr h),
      if_neg (not_lt.mpr h)]
    exact ⟨rfl, rfl⟩
  · intro h
    rw [chart_total_pcr, analytics_total_pcr, if_pos h, if_pos h]
    exact ⟨rfl, rfl, abs_pyRoundQ4_sub_le _⟩

/-- Witness for the amended C7: the zero-guard at `total_call_oi = 0,
total_put_oi = 90`, and the ratio statements on the chain `[(3, 1)]`. -/
theorem pcr_sentinel_and_ratio_witness :
    chart_total_pcr [(0, 90)] = 0 ∧ analytics_total_pcr [(0, 90)] = 0 ∧
    chart_total_pcr [(3, 1)]
        = (([((3 : ℚ), (1 : ℚ))].map Prod.snd).sum
            / ([((3 : ℚ), (1 : ℚ))].map Prod.fst).sum) ∧
    |analytics_total_pcr [(3, 1)]
        - (([((3 : ℚ), (1 : ℚ))].map Prod.snd).sum
            / ([((3 : ℚ), (1 : ℚ))].map Prod.fst).sum)| ≤ 1 / 20000 :=
  ⟨((pcr_sentinel_and_ratio [(0, 90)]).1 (by norm_num)).1,
    ((pcr_sentinel_and_ratio [(0, 90)]).1 (by norm_num)).2,
    ((pcr_sentinel_and_ratio [(3, 1)]).2 (by norm_num)).1,
    ((pcr_sentinel_and_ratio [(3, 1)]).2 (by norm_num)).2.2⟩

/-- Loop invariant of the yahoo portfolio aggregation: the fold appends the
details of exactly the successfully evaluated legs and adds exactly their
contributions to each running total. -/
lemma foldl_yStep_spec (spot : ℝ) (ps : List YPosition) :
    ∀ acc : YTotals × List YLegDetail,
      (ps.foldl (yStep spot) acc).2
          = acc.2 ++ (ps.filterMap (evalYPosition spot)).map (·.detail) ∧
      (ps.foldl (yStep spot) acc).1.delta
          = acc.1.delta
            + ((ps.filterMap (evalYPosition spot)).map (·.cDelta)).sum ∧
      (ps.foldl (yStep spot) acc).1.gamma
          = acc.1.gamma
            + ((ps.filterMap (evalYPosition spot)).map (·.cGamma)).sum ∧
      (ps.foldl (yStep spot) acc).1.theta
          = acc.1.theta
            + ((ps.filterMap (evalYPosition spot)).map (·.cTheta)).sum ∧
      (ps.foldl (yStep spot) acc).1.vega
          = acc.1.vega
            + ((ps.filterMap (evalYPosition spot)).map (·.cVega)).sum ∧
      (ps.foldl (yStep spot) acc).1.rho
          = acc.1.rho
            + ((ps.filterMap (evalYPosition spot)).map (·.cRho)).sum ∧
      (ps.foldl (yStep spot) acc).1.net_premium
          = acc.1.net_premium
            + ((ps.filterMap (evalYPosition spot)).map (·.cPremium)).sum := by
  induction ps with
  | nil => intro acc; simp
  | cons p ps ih =>
      intro acc
      rw [List.foldl_cons]
      cases h : evalYPosition spot p with
      | none =>
          have hstep : yStep spot acc p = acc := by
            simp only [yStep, h]
          rw [hstep]
          simpa [List.filterMap_cons, h] using ih acc
      | some leg =>
          have hstep : yStep spot acc p =
              ({ delta := acc.1.delta + leg.cDelta
                 gamma := acc.1.gamma + leg.cGamma
                 theta := acc.1.theta + leg.cTheta
                 vega := acc.1.vega + leg.cVega
                 rho := acc.1.rho + leg.cRho
                 net_premium := acc.1.net_premium + leg.cPremium },
                acc.2 ++ [leg.detail]) := by
            simp only [yStep, h]
          rw [hstep]
          obtain ⟨h2, hd, hg, hth, hv, hr, hp⟩ := ih
            ({ delta := acc.1.delta + leg.cDelta
               gamma := acc.1.gamma + leg.cGamma
               theta := acc.1.theta + leg.cTheta
               vega := acc.1.vega + leg.cVega
               rho := acc.1.rho + leg.cRho
               net_premium := acc.1.net_premium + leg.cPremium },
              acc.2 ++ [leg.detail])
          refine ⟨?_, ?_, ?_, ?_, ?_, ?_, ?_⟩ <;>
            simp [List.filterMap_cons, h, h2, hd, hg, hth, hv, hr, hp] <;> ring

lemma cpg_details (positions : List YPosition) (spot : ℝ) :
    (calculate_portfolio_greeks positions spot).position_details
      = (positions.foldl (yStep spot) (⟨0, 0, 0, 0, 0, 0⟩, [])).2 := rfl

lemma cpg_count (positions : List YPosition) (spot : ℝ) :
    (calculate_portfolio_greeks positions spot).portfolio_greeks.total_positions
      = positions.length := rfl

lemma cpg_delta (positions : List YPosition) (spot : ℝ) :
    (calculate_portfolio_greeks positions spot).portfolio_greeks.delta
      = pyRound (positions.foldl (yStep spot) (⟨0, 0, 0, 0, 0, 0⟩, [])).1.delta 6 :=
  rfl

lemma cpg_gamma (positions : List YPosition) (spot : ℝ) :
    (calculate_portfolio_greeks positions spot).portfolio_greeks.gamma
      = pyRound (positions.foldl (yStep spot) (⟨0, 0, 0, 0, 0, 0⟩, [])).1.gamma 6 :=
  rfl

lemma cpg_theta (positions : List YPosition) (spot : ℝ) :
    (calculate_portfolio_greeks positions spot).portfolio_greeks.theta
      = pyRound (positions.foldl (yStep spot) (⟨0, 0, 0, 0, 0, 0⟩, [])).1.theta 6 :=
  rfl

lemma cpg_vega (positions : List YPosition) (spot : ℝ) :
    (calculate_portfolio_greeks positions spot).portfolio_greeks.vega
      = pyRound (positions.foldl (yStep spot) (⟨0, 0, 0, 0, 0, 0⟩, [])).1.vega 6 :=
  rfl

lemma cpg_rho (positions : List YPosition) (spot : ℝ) :
    (calculate_portfolio_greeks positions spot).portfolio_greeks.rho
      = pyRound (positions.foldl (yStep spot) (⟨0, 0, 0, 0, 0, 0⟩, [])).1.rho 6 :=
  rfl

lemma cpg_premium (positions : List YPosition) (spot : ℝ) :
    (calculate_portfolio_greeks positions spot).portfolio_greeks.net_premium
      = pyRound
          (positions.foldl (yStep spot) (⟨0, 0, 0, 0, 0, 0⟩, [])).1.net_premium
          6 :=
  rfl

/-- C10: the yahoo portfolio summary's `total_positions` always equals the
length of the input list, even though legs that fail during evaluation are
excluded from the totals, the net premium and the per-position breakdown —
so the reported count can exceed the number of legs actually aggregated; the
`app.py`/`fastapi_app.py` handlers likewise report `positions_count` as the
input length (they aggregate every leg or abort wholesale). -/
theorem portfolio_count_includes_failed_legs (positions : List YPosition)
    (spot : ℝ) (appPositions : List AppPosition) (appSpot : ℝ) :
    (calculate_portfolio_greeks positions spot).portfolio_greeks.total_positions
        = positions.length ∧
    (calculate_portfolio_greeks positions spot).position_details.length
        = (positions.filterMap (evalYPosition spot)).length ∧
    (calculate_portfolio_greeks positions spot).portfolio_greeks.delta
        = pyRound
            (((positions.filterMap (evalYPosition spot)).map (·.cDelta)).sum)
            6 ∧
    (calculate_portfolio_greeks positions spot).portfolio_greeks.net_premium
        = pyRound
            (((positions.filterMap (evalYPosition spot)).map (·.cPremium)).sum)
            6 ∧
    (app_calculate_portfolio_greeks appPositions appSpot).positions_count
        = appPositions.length := by
  obtain ⟨h2, hd, hg, hth, hv, hr, hp⟩ :=
    foldl_yStep_spec spot positions (⟨0, 0, 0, 0, 0, 0⟩, [])
  refine ⟨cpg_count positions spot, ?_, ?_, ?_, rfl⟩
  · rw [cpg_details, h2]
    simp
  · rw [cpg_delta, hd]
    norm_num
  · rw [cpg_premium, hp]
    norm_num

/-- C8 (counterexample): a three-position list whose middle position is
malformed (its `strike` key is missing, so evaluating it raises and the
`except: continue` path fires).  The aggregation does not abort and uses the
two valid legs, but the malformed position is *not* reported anywhere: the
result — whose type mirrors the source's result dictionary, which has only
`portfolio_greeks`, `position_details` and `spot_price` keys — contains no
error entry; the bad leg shows up only in the count. -/
theorem portfolio_no_error_entry_cx :
    (calculate_portfolio_greeks
        [⟨some 100, some 2, some Side.call, none, none, none⟩,
          ⟨none, some 1, some Side.call, none, none, none⟩,
          ⟨some 110, some (-1), some Side.put, none, none, none⟩]
        100).position_details.length = 2 ∧
    (calculate_portfolio_greeks
        [⟨some 100, some 2, some Side.call, none, none, none⟩,
          ⟨none, some 1, some Side.call, none, none, none⟩,
          ⟨some 110, some (-1), some Side.put, none, none, none⟩]
        100).portfolio_greeks.total_positions = 3 := by
  obtain ⟨leg1, hleg1⟩ : ∃ leg, evalYPosition 100
      (⟨some 100, some 2, some Side.call, none, none, none⟩ : YPosition)
        = some leg := ⟨_, rfl⟩
  obtain ⟨leg2, hleg2⟩ : ∃ leg, evalYPosition 100
      (⟨some 110, some (-1), some Side.put, none, none, none⟩ : YPosition)
        = some leg := ⟨_, rfl⟩
  have hbad : evalYPosition 100
      (⟨none, some 1, some Side.call, none, none, none⟩ : YPosition) = none := rfl
  obtain ⟨h2, -, -, -, -, -, -⟩ := foldl_yStep_spec 100
    [⟨some 100, some 2, some Side.call, none, none, none⟩,
      ⟨none, some 1, some Side.call, none, none, none⟩,
      ⟨some 110, some (-1), some Side.put, none, none, none⟩]
    (⟨0, 0, 0, 0, 0, 0⟩, [])
  refine ⟨?_, cpg_count _ _⟩
  rw [cpg_details, h2]
  simp [List.filterMap_cons, hleg1, hleg2, hbad]

/-- C8 (amended): the yahoo aggregation tolerates a malformed position without
aborting — the failing leg is skipped silently: the breakdown and every total
are the same as if the leg were absent, no error entry is produced anywhere in
the result, and the leg remains visible only in `total_positions` (the
`app.py`/`fastapi_app.py` variants instead abort the whole call on a raising
leg). -/
theorem portfolio_skips_silently (spot : ℝ) (ps1 ps2 : List YPosition)
    (bad : YPosition) (hbad : evalYPosition spot bad = none) :
    (calculate_portfolio_greeks (ps1 ++ bad :: ps2) spot).position_details
        = (calculate_portfolio_greeks (ps1 ++ ps2) spot).position_details ∧
    (calculate_portfolio_greeks (ps1 ++ bad :: ps2) spot).portfolio_greeks.delta
        = (calculate_portfolio_greeks (ps1 ++ ps2) spot).portfolio_greeks.delta ∧
    (calculate_portfolio_greeks (ps1 ++ bad :: ps2) spot).portfolio_greeks.gamma
        = (calculate_portfolio_greeks (ps1 ++ ps2) spot).portfolio_greeks.gamma ∧
    (calculate_portfolio_greeks (ps1 ++ bad :: ps2) spot).portfolio_greeks.theta
        = (calculate_portfolio_greeks (ps1 ++ ps2) spot).portfolio_greeks.theta ∧
    (calculate_portfolio_greeks (ps1 ++ bad :: ps2) spot).portfolio_greeks.vega
        = (calculate_portfolio_greeks (ps1 ++ ps2) spot).portfolio_greeks.vega ∧
    (calculate_portfolio_greeks (ps1 ++ bad :: ps2) spot).portfolio_greeks.rho
        = (calculate_portfolio_greeks (ps1 ++ ps2) spot).portfolio_greeks.rho ∧
    (calculate_portfolio_greeks
        (ps1 ++ bad :: ps2) spot).portfolio_greeks.net_premium
        = (calculate_portfolio_greeks
            (ps1 ++ ps2) spot).portfolio_greeks.net_premium ∧
    (calculate_portfolio_greeks
        (ps1 ++ bad :: ps2) spot).portfolio_greeks.total_positions
        = ps1.length + ps2.length + 1 := by
  have hfm : (ps1 ++ bad :: ps2).filterMap (evalYPosition spot)
      = (ps1 ++ ps2).filterMap (evalYPosition spot) := by
    simp [List.filterMap_append, List.filterMap_cons, hbad]
  obtain ⟨a2, ad, ag, ath, av, ar, ap⟩ :=
    foldl_yStep_spec spot (ps1 ++ bad :: ps2) (⟨0, 0, 0, 0, 0, 0⟩, [])
  obtain ⟨b2, bd, bg, bth, bv, br, bp⟩ :=
    foldl_yStep_spec spot (ps1 ++ ps2) (⟨0, 0, 0, 0, 0, 0⟩, [])
  refine ⟨?_, ?_, ?_, ?_, ?_, ?_, ?_, ?_⟩
  · rw [cpg_details, cpg_details, a2, b2, hfm]
  · rw [cpg_delta, cpg_delta, ad, bd, hfm]
  · rw [cpg_gamma, cpg_gamma, ag, bg, hfm]
  · rw [cpg_theta, cpg_theta, ath, bth, hfm]
  · rw [cpg_vega, cpg_vega, av, bv, hfm]
  · rw [cpg_rho, cpg_rho, ar, br, hfm]
  · rw [cpg_premium, cpg_premium, ap, bp, hfm]
  · rw [cpg_count]
    simp [List.length_append]
    ring

/-- Witness for the amended C8: the skip behaviour on the concrete
three-position list with the malformed middle leg. -/
theorem portfolio_skips_silently_witness :
    evalYPosition 100
        (⟨none, some 1, some Side.call, none, none, none⟩ : YPosition) = none ∧
    (calculate_portfolio_greeks
        [⟨some 100, some 2, some Side.call, none, none, none⟩,
          ⟨none, some 1, some Side.call, none, none, none⟩,
          ⟨some 110, some (-1), some Side.put, none, none, none⟩]
        100).portfolio_greeks.net_premium
      = (calculate_portfolio_greeks
          [⟨some 100, some 2, some Side.call, none, none, none⟩,
            ⟨some 110, some (-1), some Side.put, none, none, none⟩]
          100).portfolio_greeks.net_premium ∧
    (calculate_portfolio_greeks
        [⟨some 100, some 2, some Side.call, none, none, none⟩,
          ⟨none, some 1, some Side.call, none, none, none⟩,
          ⟨some 110, some (-1), some Side.put, none, none, none⟩]
        100).portfolio_greeks.total_positions = 3 :=
  have h := portfolio_skips_silently 100
    [⟨some 100, some 2, some Side.call, none, none, none⟩]
    [⟨some 110, some (-1), some Side.put, none, none, none⟩]
    ⟨none, some 1, some Side.call, none, none, none⟩ rfl
  ⟨rfl, h.2.2.2.2.2.2.1, h.2.2.2.2.2.2.2⟩

lemma bs_call_nonneg (S K T r sigma q : ℝ) :
    0 ≤ black_scholes_call S K T r sigma q := by
  unfold black_scholes_call
  split <;> exact le_max_right _ _

lemma bs_call_pos (S K T r sigma q : ℝ) (hS : 0 < S) (hK : 0 < K) (hT : 0 < T)
    (hsigma : 0 < sigma) : 0 < black_scholes_call S K T r sigma q := by
  rw [black_scholes_call, if_neg (not_le.mpr hT)]
  exact lt_max_of_lt_left (call_raw_pos S K T r sigma q hS hK hT hsigma)

lemma bs_call_le_sCdf (S K T r sigma q : ℝ) (hS : 0 ≤ S) (hK : 0 ≤ K)
    (hT : 0 < T) :
    black_scholes_call S K T r sigma q
      ≤ S * Real.exp (-q * T) * normCdf (bsD1 S K T r sigma q) := by
  rw [black_scholes_call, if_neg (not_le.mpr hT)]
  apply max_le
  · have h2 : 0 ≤ K * Real.exp (-r * T) * normCdf (bsD2 S K T r sigma q) :=
      mul_nonneg (mul_nonneg hK (Real.exp_nonneg _)) (normCdf_nonneg _)
    linarith
  · exact mul_nonneg (mul_nonneg hS (Real.exp_nonneg _)) (normCdf_nonneg _)

lemma log_two_thirds_lt : Real.log (2 / 3 : ℝ) < -(2 / 5) := by
  have hpow : Real.exp (2 / 5) ^ (5 : ℕ) = Real.exp 2 := by
    rw [← Real.exp_nat_mul]; norm_num
  have hexp2 : Real.exp 2 = Real.exp 1 ^ (2 : ℕ) := by
    rw [← Real.exp_nat_mul]; norm_num
  have he2 : Real.exp 2 < 7.5 := by
    have h1 := Real.exp_one_lt_d9
    rw [hexp2]
    nlinarith [Real.exp_pos 1]
  have h52 : Real.exp (2 / 5) < 3 / 2 := by
    have h5 : Real.exp (2 / 5) ^ (5 : ℕ) < (3 / 2 : ℝ) ^ (5 : ℕ) := by
      rw [hpow]
      norm_num
      linarith
    exact lt_of_pow_lt_pow_left₀ 5 (by norm_num) h5
  have hlog32 : 2 / 5 < Real.log (3 / 2) :=
    (Real.lt_log_iff_exp_lt (by norm_num)).mpr h52
  have h23 : (2 / 3 : ℝ) = (3 / 2)⁻¹ := by norm_num
  rw [h23, Real.log_inv]
  linarith

lemma sqrt_tenth_le : Real.sqrt (1 / 10 : ℝ) ≤ 3163 / 10000 := by
  have h : (1 / 10 : ℝ) ≤ (3163 / 10000) ^ 2 := by norm_num
  calc Real.sqrt (1 / 10) ≤ Real.sqrt ((3163 / 10000) ^ 2) := Real.sqrt_le_sqrt h
    _ = 3163 / 10000 := Real.sqrt_sq (by norm_num)

/-- For the deep out-of-the-money chain point `S = 100, K = 150, T = 0.1` and
any volatility `σ ≤ 0.2`, the Black-Scholes `d1` is below `-6`. -/
lemma deep_otm_d1_le (sigma : ℝ) (h0 : 0 < sigma) (h1 : sigma ≤ 1 / 5) :
    bsD1 100 150 (1 / 10) 0 sigma 0 ≤ -6 := by
  have hs := sqrt_tenth_le
  have hsp : 0 < Real.sqrt (1 / 10 : ℝ) := Real.sqrt_pos.mpr (by norm_num)
  have hlog := log_two_thirds_lt
  rw [bsD1]
  rw [div_le_iff₀ (by positivity)]
  have h100 : (100 / 150 : ℝ) = 2 / 3 := by norm_num
  rw [h100]
  have hsq : sigma ^ 2 ≤ 1 / 5 * sigma := by nlinarith
  have hprod : sigma * Real.sqrt (1 / 10 : ℝ) ≤ 1 / 5 * (3163 / 10000) :=
    mul_le_mul h1 hs hsp.le (by norm_num)
  nlinarith

/-- Deep out-of-the-money prices are far below the solver's `1e-3` tolerance. -/
lemma deep_otm_price_lt (sigma : ℝ) (h0 : 0 < sigma) (h1 : sigma ≤ 1 / 5) :
    black_scholes_call 100 150 (1 / 10) 0 sigma 0 < 1 / 2000 := by
  have hd1 := deep_otm_d1_le sigma h0 h1
  have hb := bs_call_le_sCdf 100 150 (1 / 10) 0 sigma 0 (by norm_num)
    (by norm_num) (by norm_num)
  have hcdf : normCdf (bsD1 100 150 (1 / 10) 0 sigma 0) ≤ normCdf (-6) :=
    normCdf_mono hd1
  have h6 := normCdf_neg_six_le
  have h18 := exp_neg_eighteen_lt
  have hexp0 : Real.exp (-0 * (1 / 10) : ℝ) = 1 := by norm_num
  rw [hexp0] at hb
  nlinarith

lemma ivLoop_succ (p S K T r q : ℝ) (side : Side) (n : ℕ) (sigma : ℝ) :
    ivLoop p S K T r q side (n + 1) sigma =
      if |bsPrice side S K T r sigma q - p| < 0.001
          ∨ ivVegaRaw S K T r sigma q = 0
      then sigma
      else ivLoop p S K T r q side n
        (max 0.01 (min
          (sigma - (bsPrice side S K T r sigma q - p) / ivVegaRaw S K T r sigma q)
          5)) := rfl

lemma ivLoopConv_succ (p S K T r q : ℝ) (side : Side) (n : ℕ) (sigma : ℝ) :
    ivLoopConv p S K T r q side (n + 1) sigma =
      if |bsPrice side S K T r sigma q - p| < 0.001 then some sigma
      else if ivVegaRaw S K T r sigma q = 0 then none
      else ivLoopConv p S K T r q side n
        (max 0.01 (min
          (sigma - (bsPrice side S K T r sigma q - p) / ivVegaRaw S K T r sigma q)
          5)) := rfl

/-- C9 (counterexample): the claimed 1e-4 volatility round-trip fails on valid
inputs.  For the deep out-of-the-money call `S = 100, K = 150, T = 0.1, r = 0`
with `σ₀ = 0.05`, both the true price and the price at the initial guess `0.2`
are below `5·10⁻⁴`, so the solver's very first `|price_diff| < 0.001` test
fires and it returns the initial guess `0.2`; the recovered volatility is
`0.15` away from `σ₀`, not within `10⁻⁴`. -/
theorem iv_roundtrip_fails_deep_otm_cx :
    ¬ |implied_volatility (black_scholes_call 100 150 (1 / 10) 0 (1 / 20) 0)
          100 150 (1 / 10) 0 Side.call 0 - 1 / 20| ≤ 1 / 10000 := by
  set p := black_scholes_call 100 150 (1 / 10) 0 (1 / 20) 0 with hpdef
  have hp : 0 < p := bs_call_pos 100 150 (1 / 10) 0 (1 / 20) 0 (by norm_num)
    (by norm_num) (by norm_num) (by norm_num)
  have hp2 : p < 1 / 2000 := deep_otm_price_lt (1 / 20) (by norm_num) (by norm_num)
  have hq1 : black_scholes_call 100 150 (1 / 10) 0 (0.2 : ℝ) 0 < 1 / 2000 :=
    deep_otm_price_lt (0.2 : ℝ) (by norm_num) (by norm_num)
  have hq0 : 0 ≤ black_scholes_call 100 150 (1 / 10) 0 (0.2 : ℝ) 0 :=
    bs_call_nonneg _ _ _ _ _ _
  have hconv : bsPrice Side.call 100 150 (1 / 10) 0 (0.2 : ℝ) 0
      = black_scholes_call 100 150 (1 / 10) 0 (0.2 : ℝ) 0 := rfl
  have htol : |bsPrice Side.call 100 150 (1 / 10) 0 (0.2 : ℝ) 0 - p| < 0.001 := by
    rw [hconv, abs_sub_lt_iff]
    have hmil : (0.001 : ℝ) = 1 / 1000 := by norm_num
    constructor <;> linarith
  have hres : implied_volatility p 100 150 (1 / 10) 0 Side.call 0 = 0.2 := by
    rw [implied_volatility, if_neg (by push_neg; exact ⟨by norm_num, hp⟩)]
    rw [show (100 : ℕ) = 99 + 1 from rfl, ivLoop_succ, if_pos (Or.inl htol)]
    exact max_eq_left (by norm_num)
  rw [hres]
  rw [abs_of_nonneg (by norm_num)]
  norm_num

/-- C9 (amended): the solver does not recover `σ₀` to `1e-4` in general (see
the counterexample, where it returns its `0.2` initial guess); what it does
guarantee is price-level accuracy on its convergence path: whenever the loop
exits through the `|price - market_price| < 0.001` tolerance test, the iterate
it returns reprices the option within that `1e-3` tolerance. -/
theorem iv_price_level_guarantee (p S K T r q : ℝ) (side : Side) :
    ∀ (fuel : ℕ) (sigma sigmaStar : ℝ),
      ivLoopConv p S K T r q side fuel sigma = some sigmaStar →
      ivLoop p S K T r q side fuel sigma = sigmaStar ∧
      |bsPrice side S K T r sigmaStar q - p| < 0.001 := by
  intro fuel
  induction fuel with
  | zero =>
      intro sigma s h
      simp [ivLoopConv] at h
  | succ n ih =>
      intro sigma s h
      rw [ivLoopConv_succ] at h
      by_cases h1 : |bsPrice side S K T r sigma q - p| < 0.001
      · rw [if_pos h1] at h
        obtain rfl : sigma = s := by simpa using h
        rw [ivLoop_succ, if_pos (Or.inl h1)]
        exact ⟨rfl, h1⟩
      · rw [if_neg h1] at h
        by_cases h2 : ivVegaRaw S K T r sigma q = 0
        · rw [if_pos h2] at h
          cases h
        · rw [if_neg h2] at h
          have hrec := ih _ _ h
          rw [ivLoop_succ, if_neg (by push_neg; exact ⟨not_lt.mp h1, h2⟩)]
          exact hrec

/-- Witness for the amended C9: a run that exits through the tolerance test
(market price priced exactly at the current iterate) satisfies the price-level
guarantee. -/
theorem iv_price_level_guarantee_witness :
    ivLoopConv (black_scholes_call 100 150 (1 / 10) 0 (0.2 : ℝ) 0)
        100 150 (1 / 10) 0 0 Side.call 1 0.2 = some 0.2 ∧
    ivLoop (black_scholes_call 100 150 (1 / 10) 0 (0.2 : ℝ) 0)
        100 150 (1 / 10) 0 0 Side.call 1 0.2 = 0.2 ∧
    |bsPrice Side.call 100 150 (1 / 10) 0 (0.2 : ℝ) 0
        - black_scholes_call 100 150 (1 / 10) 0 (0.2 : ℝ) 0| < 0.001 := by
  have hconv : bsPrice Side.call 100 150 (1 / 10) 0 (0.2 : ℝ) 0
      = black_scholes_call 100 150 (1 / 10) 0 (0.2 : ℝ) 0 := rfl
  have hzero : |bsPrice Side.call 100 150 (1 / 10) 0 (0.2 : ℝ) 0
      - black_scholes_call 100 150 (1 / 10) 0 (0.2 : ℝ) 0| < 0.001 := by
    rw [hconv, sub_self, abs_zero]
    norm_num
  have harg : ivLoopConv (black_scholes_call 100 150 (1 / 10) 0 (0.2 : ℝ) 0)
      100 150 (1 / 10) 0 0 Side.call 1 0.2 = some 0.2 := by
    rw [show (1 : ℕ) = 0 + 1 from rfl, ivLoopConv_succ, if_pos hzero]
  have h := iv_price_level_guarantee
    (black_scholes_call 100 150 (1 / 10) 0 (0.2 : ℝ) 0)
    100 150 (1 / 10) 0 0 Side.call 1 0.2 0.2 harg
  exact ⟨harg, h.1, h.2⟩

end NiftyAnalysis
